import Mathlib

set_option maxRecDepth 100000

/-!
Shallow embedding of the mean-feeder program (src/main.rs).

Strings are modelled as lists of characters (`Str`).  Rust byte positions
coincide with character positions on the ASCII inputs the claims exercise;
where a byte-level behaviour is load-bearing (UTF-8 truncation of summaries)
the byte structure is modelled explicitly via per-character UTF-8 sizes.
Machine integers (`i64`) are modelled as `Int`; the `i64` range bound enters
as an explicit hypothesis where `str::parse::<i64>` range checking matters.
Fallible or panicking code paths return `Option`.
-/

abbrev Str := List Char

/-- Rust `str::replace` for a single-character pattern and single-character
replacement (used by `sanitize_field`). -/
def replaceChar (c r : Char) (s : Str) : Str :=
  s.map (fun x => if x = c then r else x)

/-- main.rs `sanitize_field`: `s.replace('\t', " ").replace('\n', " ")`. -/
def sanitize_field (s : Str) : Str :=
  replaceChar '\n' ' ' (replaceChar '\t' ' ' s)

/-- Strip one trailing carriage return, as Rust `str::lines` does per line. -/
def stripTrailingCR (s : Str) : Str :=
  if s.getLast? = some '\r' then s.dropLast else s

/-- Worker for `rustLines`: accumulates the current line in reverse. -/
def linesGo (cur : Str) : Str → List Str
  | [] => if cur = [] then [] else [stripTrailingCR cur.reverse]
  | c :: rest =>
    if c = '\n' then stripTrailingCR cur.reverse :: linesGo [] rest
    else linesGo (c :: cur) rest

/-- Rust `str::lines`: split on newline characters, a final line ending being
optional, and strip one trailing carriage return from each line. -/
def rustLines (s : Str) : List Str := linesGo [] s

/-- Split a string at the first occurrence of `c`, if any. -/
def splitFirst (c : Char) : Str → Option (Str × Str)
  | [] => none
  | x :: rest =>
    if x = c then some ([], rest)
    else (splitFirst c rest).map (fun p => (x :: p.1, p.2))

/-- Rust `str::splitn(n, c)`: at most `n` pieces, the last piece keeping any
further separators. -/
def splitn : Nat → Char → Str → List Str
  | 0, _, _ => []
  | 1, _, s => [s]
  | n + 2, c, s =>
    match splitFirst c s with
    | none => [s]
    | some (pre, post) => pre :: splitn (n + 1) c post

/-- Rust `str::split(c)`: split at every occurrence of `c`, keeping empty
segments (so `"a::b"` gives `["a", "", "b"]`). -/
def splitOnCharM (c : Char) : Str → List Str
  | [] => [[]]
  | x :: rest =>
    if x = c then [] :: splitOnCharM c rest
    else
      match splitOnCharM c rest with
      | [] => [[x]]
      | y :: ys => (x :: y) :: ys

/-- Numeric value of an ASCII digit character. -/
def charToDigit (c : Char) : Option Nat :=
  if '0' ≤ c ∧ c ≤ '9' then some (c.toNat - 48) else none

/-- Accumulate the decimal value of a digit string; fails at the first
non-digit character. -/
def digitsVal (acc : Nat) : Str → Option Nat
  | [] => some acc
  | c :: rest =>
    match charToDigit c with
    | some d => digitsVal (acc * 10 + d) rest
    | none => none

/-- Rust `str::parse::<i64>`: optional sign, one or more ASCII digits, whole
string consumed, and the value must fit in the `i64` range. -/
def parseI64 (s : Str) : Option Int :=
  match s with
  | [] => none
  | c :: rest =>
    if c = '+' then
      if rest = [] then none else
        (digitsVal 0 rest).bind fun n =>
          if n ≤ 2 ^ 63 - 1 then some (n : Int) else none
    else if c = '-' then
      if rest = [] then none else
        (digitsVal 0 rest).bind fun n =>
          if n ≤ 2 ^ 63 then some (-(n : Int)) else none
    else
      (digitsVal 0 (c :: rest)).bind fun n =>
        if n ≤ 2 ^ 63 - 1 then some (n : Int) else none

/-- The ASCII character for a decimal digit. -/
def digitChar10 (d : Nat) : Char :=
  match d with
  | 0 => '0' | 1 => '1' | 2 => '2' | 3 => '3' | 4 => '4'
  | 5 => '5' | 6 => '6' | 7 => '7' | 8 => '8' | _ => '9'

/-- Decimal rendering of a natural number (Rust `u64`-style digits). -/
def natToStr (n : Nat) : Str :=
  if n = 0 then ['0'] else ((Nat.digits 10 n).map digitChar10).reverse

/-- Rust `i64::to_string`. -/
def intToStr (n : Int) : Str :=
  if n < 0 then '-' :: natToStr n.natAbs else natToStr n.toNat

/-- Canonical `Entry` record of main.rs. -/
structure Entry where
  id : Str
  title : Str
  link : Str
  published : Option Int
  feed_title : Str
  summary : Option Str
deriving DecidableEq, Repr

/-- One output line of `save_entries`, without the trailing newline. -/
def entryLine (e : Entry) : Str :=
  sanitize_field e.id ++ '\t' ::
  (sanitize_field e.title ++ '\t' ::
  (sanitize_field e.link ++ '\t' ::
  ((e.published.map intToStr).getD [] ++ '\t' ::
  (sanitize_field e.feed_title ++ '\t' ::
  sanitize_field (e.summary.getD [])))))

/-- main.rs `save_entries`: the file contents written (the filesystem write
itself is I/O outside the model). -/
def save_entries (entries : List Entry) : Str :=
  (entries.map (fun e => entryLine e ++ ['\n'])).flatten

/-- The per-line body of `load_entries`: split into at most six fields,
skip short lines, parse `published` leniently, collapse an empty summary
field to `none`. -/
def parseLine (line : Str) : Option Entry :=
  match splitn 6 '\t' line with
  | [f0, f1, f2, f3, f4, f5] =>
    some { id := f0, title := f1, link := f2, published := parseI64 f3,
           feed_title := f4,
           summary := if f5 = [] then none else some f5 }
  | _ => none

/-- main.rs `load_entries` applied to the file contents (a missing file is
handled by the caller as the empty string). -/
def load_entries (contents : Str) : List Entry :=
  (rustLines contents).filterMap parseLine

/-- Unicode code points with the White_Space property, as used by Rust
`char::is_whitespace`. -/
def rustIsWhitespace (c : Char) : Bool :=
  [0x09, 0x0A, 0x0B, 0x0C, 0x0D, 0x20, 0x85, 0xA0, 0x1680,
   0x2000, 0x2001, 0x2002, 0x2003, 0x2004, 0x2005, 0x2006, 0x2007,
   0x2008, 0x2009, 0x200A, 0x2028, 0x2029, 0x202F, 0x205F, 0x3000].contains c.toNat

/-- Rust `str::trim`: remove leading and trailing whitespace. -/
def trimRust (s : Str) : Str :=
  ((s.dropWhile rustIsWhitespace).reverse.dropWhile rustIsWhitespace).reverse

/-- Rust `str::split_whitespace`: maximal non-whitespace runs, in order. -/
def split_whitespace (s : Str) : List Str :=
  (List.splitOnP rustIsWhitespace s).filter (· ≠ [])

/-- main.rs `days_since_epoch` (proleptic Gregorian civil-date count; Rust
`i64` division truncates toward zero, hence `Int.tdiv`). -/
def days_since_epoch (year month day : Int) : Int :=
  let y := if month ≤ 2 then year - 1 else year
  let m := if month ≤ 2 then month + 9 else month - 3
  let era := Int.tdiv y 400
  let yoe := y - era * 400
  let doy := Int.tdiv (153 * m + 2) 5 + day - 1
  let doe := yoe * 365 + Int.tdiv yoe 4 - Int.tdiv yoe 100 + doy
  era * 146097 + doe - 719468

/-- main.rs `parse_rfc3339` for `YYYY-MM-DDTHH:MM:SS` plus optional zone
suffix.  Rust slices fixed byte ranges; character positions coincide for
the ASCII-shaped inputs that reach this branch. -/
def parse_rfc3339 (s : Str) : Option Int :=
  (parseI64 (s.take 4)).bind fun year =>
  (parseI64 ((s.drop 5).take 2)).bind fun month =>
  (parseI64 ((s.drop 8).take 2)).bind fun day =>
  (parseI64 ((s.drop 11).take 2)).bind fun hour =>
  (parseI64 ((s.drop 14).take 2)).bind fun minute =>
  (parseI64 ((s.drop 17).take 2)).bind fun sec =>
    let ts := days_since_epoch year month day * 86400 +
      hour * 3600 + minute * 60 + sec
    let rest := s.drop 19
    let offset : Option Int :=
      if rest.head? = some 'Z' ∨ rest.head? = some 'z' then some 0
      else if 6 ≤ rest.length ∧ (rest.head? = some '+' ∨ rest.head? = some '-') then
        (parseI64 ((rest.drop 1).take 2)).bind fun oh =>
        (parseI64 ((rest.drop 4).take 2)).map fun om =>
          (if rest.head? = some '-' then (-1 : Int) else 1) * (oh * 3600 + om * 60)
      else some 0
    offset.map fun o => ts - o

/-- ASCII lower-casing of a character (Rust `to_ascii_lowercase`). -/
def asciiLower (c : Char) : Char :=
  if 'A' ≤ c ∧ c ≤ 'Z' then Char.ofNat (c.toNat + 32) else c

/-- Month number from the 3-letter abbreviation table in `parse_rfc2822`. -/
def month_from_abbrev (s : Str) : Option Int :=
  let t := s.map asciiLower
  if t = "jan".data then some 1 else if t = "feb".data then some 2
  else if t = "mar".data then some 3 else if t = "apr".data then some 4
  else if t = "may".data then some 5 else if t = "jun".data then some 6
  else if t = "jul".data then some 7 else if t = "aug".data then some 8
  else if t = "sep".data then some 9 else if t = "oct".data then some 10
  else if t = "nov".data then some 11 else if t = "dec".data then some 12
  else none

/-- main.rs `parse_tz_offset`: fixed table of named zones; a numeric
`±HHMM` token has its two digit groups parsed with `unwrap_or(0)`; anything
else is offset 0. -/
def parse_tz_offset (s : Str) : Int :=
  if s = "GMT".data ∨ s = "UTC".data ∨ s = "UT".data ∨ s = "Z".data then 0
  else if s = "EST".data then -5 * 3600
  else if s = "EDT".data then -4 * 3600
  else if s = "CST".data then -6 * 3600
  else if s = "CDT".data then -5 * 3600
  else if s = "MST".data then -7 * 3600
  else if s = "MDT".data then -6 * 3600
  else if s = "PST".data then -8 * 3600
  else if s = "PDT".data then -7 * 3600
  else if 5 ≤ s.length ∧ (s.head? = some '+' ∨ s.head? = some '-') then
    (if s.head? = some '-' then (-1 : Int) else 1) *
      (((parseI64 ((s.drop 1).take 2)).getD 0) * 3600 +
       ((parseI64 ((s.drop 3).take 2)).getD 0) * 60)
  else 0

/-- The optional-weekday strip at the start of `parse_rfc2822`:
everything after the first comma, trimmed, else the string unchanged. -/
def dropDayName (s : Str) : Str :=
  match splitFirst ',' s with
  | some p => trimRust p.2
  | none => s

/-- main.rs `parse_rfc2822`: free-form `day month-abbrev year HH:MM:SS
[zone]` grammar. -/
def parse_rfc2822 (s : Str) : Option Int :=
  match split_whitespace (dropDayName s) with
  | d :: mo :: y :: t :: rest =>
    (parseI64 d).bind fun day =>
    (month_from_abbrev mo).bind fun month =>
    (parseI64 y).bind fun year =>
    match splitOnCharM ':' t with
    | h1 :: m1 :: s2 :: _ =>
      (parseI64 h1).bind fun hour =>
      (parseI64 m1).bind fun minute =>
      (parseI64 s2).map fun sec =>
        let ts := days_since_epoch year month day * 86400 +
          hour * 3600 + minute * 60 + sec
        let offset := match rest with
          | z :: _ => parse_tz_offset z
          | [] => 0
        ts - offset
    | _ => none
  | _ => none

/-- main.rs `parse_timestamp`: trim, sniff the fixed-width RFC 3339 shape
(length and the characters at positions 4 and 10; byte positions in Rust,
equal to character positions for ASCII prefixes), else fall back to the
free-form RFC 2822 grammar. -/
def parse_timestamp (s : Str) : Option Int :=
  let t := trimRust s
  if 19 ≤ t.length ∧ t[4]? = some '-' ∧ t[10]? = some 'T' then parse_rfc3339 t
  else parse_rfc2822 t

/-- Fuel-bounded worker for `replaceStr`; the fuel starts at the string
length, each step consumes at least one character, so it never runs out
before the string does. -/
def replaceStrGo (pat rep : Str) : Nat → Str → Str
  | 0, s => s
  | _ + 1, [] => []
  | fuel + 1, c :: rest =>
    if pat.isPrefixOf (c :: rest) ∧ pat ≠ [] then
      rep ++ replaceStrGo pat rep fuel (rest.drop (pat.length - 1))
    else c :: replaceStrGo pat rep fuel rest

/-- Rust `str::replace`: replace leftmost non-overlapping occurrences of a
(non-empty) pattern. -/
def replaceStr (pat rep s : Str) : Str := replaceStrGo pat rep s.length s

/-- main.rs `decode_entities`: eight sequential `replace` calls, in source
order. -/
def decode_entities (s : Str) : Str :=
  let s := replaceStr "&amp;".data "&".data s
  let s := replaceStr "&lt;".data "<".data s
  let s := replaceStr "&gt;".data ">".data s
  let s := replaceStr "&quot;".data "\"".data s
  let s := replaceStr "&#39;".data [Char.ofNat 39] s
  let s := replaceStr "&apos;".data [Char.ofNat 39] s
  let s := replaceStr "&#x27;".data [Char.ofNat 39] s
  let s := replaceStr "&nbsp;".data " ".data s
  s

/-- The angle-bracket state machine inside `strip_html`: characters between
an unmatched opening bracket and the next closing bracket are dropped, and
closing brackets are dropped too. -/
def stripTags (inTag : Bool) : Str → Str
  | [] => []
  | c :: rest =>
    if c = '<' then stripTags true rest
    else if c = '>' then stripTags false rest
    else if inTag then stripTags true rest
    else c :: stripTags false rest

/-- main.rs `strip_html`: tag stripping followed by entity decoding. -/
def strip_html (s : Str) : Str := decode_entities (stripTags false s)

/-- Number of bytes a character occupies in UTF-8 (what Rust `str::len`
counts). -/
def charUtf8Size (c : Char) : Nat :=
  if c.toNat < 0x80 then 1
  else if c.toNat < 0x800 then 2
  else if c.toNat < 0x10000 then 3
  else 4

/-- UTF-8 byte length of a string (Rust `str::len`). -/
def utf8Len (s : Str) : Nat := (s.map charUtf8Size).sum

/-- Take the first `n` UTF-8 bytes of a string, as the Rust slice `&s[..n]`
does; `none` models the panic when `n` is not a character boundary (or is
out of range). -/
def byteTake : Nat → Str → Option Str
  | 0, _ => some []
  | _ + 1, [] => none
  | n + 1, c :: rest =>
    if charUtf8Size c ≤ n + 1 then
      (byteTake (n + 1 - charUtf8Size c) rest).map (c :: ·)
    else none

/-- The markup-stripped, trimmed, two-line-joined summary text built inside
the `fetch_feed` summary closure. -/
def twolineOf (s : Str) : Str :=
  List.intercalate [' '] ((rustLines (trimRust (strip_html s))).take 2)

/-- The `fetch_feed` summary closure: truncate to 200 UTF-8 bytes plus an
ellipsis when longer than 200 bytes.  `none` models the Rust panic when byte
index 200 is not a character boundary. -/
def summarize (s : Str) : Option Str :=
  if 200 < utf8Len (twolineOf s) then
    (byteTake 200 (twolineOf s)).map (· ++ "...".data)
  else some (twolineOf s)

/-- Summary normalisation of one raw summary in `fetch_feed`: the closure
followed by the emptiness / noise-marker filter.  The outer `Option` models
the panic; the inner one is the entry's summary field. -/
def processSummary (s : Str) : Option (Option Str) :=
  (summarize s).map fun t =>
    if t = [] ∨ t = "Comments".data then none else some t

/-- Parser output record (`RawEntry` in main.rs). -/
structure RawEntry where
  id : Str
  title : Str
  link : Str
  published : Option Str
  summary : Option Str
deriving DecidableEq, Repr

/-- main.rs `local_name`: the text after the first colon, if any. -/
def local_name (name : Str) : Str :=
  match splitFirst ':' name with
  | some p => p.2
  | none => name

/-- main.rs `attr_value`: the value of the first attribute with the given
name. -/
def attr_value (attrs : List (Str × Str)) (key : Str) : Option Str :=
  (attrs.find? (fun a => decide (a.1 = key))).map (·.2)

/-- Events of the external streaming XML reader (quick-xml), at the
boundary where `parse_feed` consumes them.  Text carries the unescaped
string (an unescape failure yields the empty string at the call site in
the source, so it is folded into the carried value). -/
inductive XmlEvent where
  | start (name : Str) (attrs : List (Str × Str))
  | empty (name : Str) (attrs : List (Str × Str))
  | text (t : Str)
  | cdata (t : Str)
  | endTag (name : Str)
  | eof
  | err
deriving DecidableEq, Repr

/-- The mutable locals of the `parse_feed` event loop. -/
structure ParserState where
  depth : Int
  inEntry : Bool
  inFeedTitle : Bool
  currentTag : Str
  entryId : Str
  entryTitle : Str
  entryLink : Str
  entryPublished : Option Str
  entrySummary : Option Str
  feedTitle : Str
  entries : List RawEntry
deriving DecidableEq, Repr

/-- Initial state of the `parse_feed` loop. -/
def initParserState : ParserState :=
  { depth := 0, inEntry := false, inFeedTitle := false, currentTag := [],
    entryId := [], entryTitle := [], entryLink := [], entryPublished := none,
    entrySummary := none, feedTitle := [], entries := [] }

/-- One iteration of the `parse_feed` match on a reader event (the `Eof`
and `Err` arms break the loop and are handled in `runEvents`). -/
def step (st : ParserState) : XmlEvent → ParserState
  | .start name attrs =>
    let lcl := local_name name
    let st := { st with depth := st.depth + 1 }
    if ¬ st.inEntry then
      if lcl = "item".data ∨ lcl = "entry".data then
        { st with inEntry := true, entryId := [], entryTitle := [],
                  entryLink := [], entryPublished := none, entrySummary := none }
      else if lcl = "title".data ∧ st.depth ≤ 3 then
        { st with inFeedTitle := true, currentTag := "title".data }
      else st
    else
      let st := { st with currentTag := lcl }
      if lcl = "link".data then
        match attr_value attrs "href".data with
        | some href => if st.entryLink = [] then { st with entryLink := href } else st
        | none => st
      else st
  | .empty name attrs =>
    let lcl := local_name name
    if st.inEntry ∧ lcl = "link".data then
      match attr_value attrs "href".data with
      | some href => if st.entryLink = [] then { st with entryLink := href } else st
      | none => st
    else st
  | .text t =>
    if st.inFeedTitle ∧ ¬ st.inEntry then
      { st with feedTitle := t, inFeedTitle := false }
    else if st.inEntry then
      if st.currentTag = "title".data then { st with entryTitle := t }
      else if st.currentTag = "link".data then
        (if st.entryLink = [] then { st with entryLink := t } else st)
      else if st.currentTag = "id".data ∨ st.currentTag = "guid".data then
        { st with entryId := t }
      else if st.currentTag = "published".data ∨ st.currentTag = "pubDate".data ∨
              st.currentTag = "updated".data ∨ st.currentTag = "date".data then
        (if st.entryPublished = none then { st with entryPublished := some t } else st)
      else if st.currentTag = "summary".data ∨ st.currentTag = "description".data ∨
              st.currentTag = "content".data ∨ st.currentTag = "encoded".data then
        (if st.entrySummary = none then { st with entrySummary := some t } else st)
      else st
    else st
  | .cdata t =>
    if st.inEntry then
      if st.currentTag = "summary".data ∨ st.currentTag = "description".data ∨
         st.currentTag = "content".data ∨ st.currentTag = "encoded".data then
        (if st.entrySummary = none then { st with entrySummary := some t } else st)
      else if st.currentTag = "title".data then { st with entryTitle := t }
      else st
    else st
  | .endTag name =>
    let lcl := local_name name
    let st := { st with depth := st.depth - 1 }
    let st := if lcl = "title".data then { st with inFeedTitle := false } else st
    let st :=
      if st.inEntry ∧ (lcl = "item".data ∨ lcl = "entry".data) then
        { st with inEntry := false,
                  entries := st.entries ++
                    [{ id := st.entryId, title := st.entryTitle,
                       link := st.entryLink, published := st.entryPublished,
                       summary := st.entrySummary }] }
      else st
    { st with currentTag := [] }
  | .eof => st
  | .err => st

/-- The `parse_feed` loop over the event stream: stops at `Eof` or at a
reader error, keeping everything closed so far. -/
def runEvents : ParserState → List XmlEvent → ParserState
  | st, [] => st
  | st, ev :: rest =>
    match ev with
    | .eof => st
    | .err => st
    | e => runEvents (step st e) rest

/-- main.rs `parse_feed`, at the event-stream boundary: the feed title and
the completed items, in document order. -/
def parse_feed (events : List XmlEvent) : Str × List RawEntry :=
  let st := runEvents initParserState events
  (st.feedTitle, st.entries)

/-- Comparison mirroring Rust `i64::cmp`. -/
def intCmp (x y : Int) : Ordering :=
  if x < y then .lt else if x = y then .eq else .gt

/-- Comparison mirroring Rust `Option<i64>::cmp`: `None` sorts below any
`Some`. -/
def optCmp : Option Int → Option Int → Ordering
  | none, none => .eq
  | none, some _ => .lt
  | some _, none => .gt
  | some x, some y => intCmp x y

/-- The `fetch_and_save` comparator `b.published.cmp(&a.published)` recast
as the "may come first" test a stable sort needs. -/
def entryLE (a b : Entry) : Bool :=
  match optCmp b.published a.published with
  | .gt => false
  | _ => true

/-- The dedup loop of `fetch_and_save`: a seen-id set, first occurrence
kept. -/
def dedupGo (seen : List Str) : List Entry → List Entry
  | [] => []
  | e :: rest =>
    if e.id ∈ seen then dedupGo seen rest
    else e :: dedupGo (e.id :: seen) rest

/-- Dedup step of `fetch_and_save` (`HashMap::insert` returning `None`
exactly for a first occurrence). -/
def dedupEntries (l : List Entry) : List Entry := dedupGo [] l

/-- The pure core of `fetch_and_save` after the per-feed fetches: dedup in
encounter order, then a stable sort by descending `published` (Rust
`sort_by` is stable; `List.mergeSort` is its stable-sort model). -/
def fetch_and_save_pure (l : List Entry) : List Entry :=
  (dedupEntries l).mergeSort entryLE

/-- Event stream for an item carrying two `guid` children. -/
def twoGuidEvents : List XmlEvent :=
  [.start "rss".data [], .start "channel".data [], .start "item".data [],
   .start "guid".data [], .text "A".data, .endTag "guid".data,
   .start "guid".data [], .text "B".data, .endTag "guid".data,
   .endTag "item".data, .endTag "channel".data, .endTag "rss".data, .eof]

/-- Event stream for a channel carrying two qualifying `title` elements. -/
def twoTitleEvents : List XmlEvent :=
  [.start "rss".data [], .start "channel".data [],
   .start "title".data [], .text "A".data, .endTag "title".data,
   .start "title".data [], .text "B".data, .endTag "title".data,
   .endTag "channel".data, .endTag "rss".data, .eof]

/-- What one save/load round trip actually does to an entry: fields are
sanitized, a carriage return ending the summary is eaten by `str::lines`,
and an empty (but present) summary collapses to an absent one. -/
def loadedEntry (e : Entry) : Entry :=
  { id := sanitize_field e.id
    title := sanitize_field e.title
    link := sanitize_field e.link
    published := e.published
    feed_title := sanitize_field e.feed_title
    summary :=
      let s := stripTrailingCR (sanitize_field (e.summary.getD []))
      if s = [] then none else some s }

/-- An entry whose summary is present but empty: the round-trip
counterexample. -/
def emptySummaryEntry : Entry :=
  { id := "i".data, title := "t".data, link := [], published := none,
    feed_title := "f".data, summary := some [] }

/-- A round-trip-clean entry used as a witness input. -/
def cleanEntry : Entry :=
  { id := "a".data, title := "b".data, link := "c".data, published := none,
    feed_title := "d".data, summary := some "e".data }

/-- Two concrete entries sharing an id, for dedup witnesses. -/
def entryA : Entry :=
  { id := "x".data, title := "first".data, link := [], published := some 5,
    feed_title := [], summary := none }

/-- Second occurrence of the same id with different fields. -/
def entryB : Entry :=
  { id := "x".data, title := "second".data, link := [], published := none,
    feed_title := [], summary := none }

/-- Propositional form of `entryLE`: descending on `published` with `none`
ranking below every `some`. -/
def pubGE : Option Int → Option Int → Prop
  | _, none => True
  | none, some _ => False
  | some x, some y => y ≤ x

/-- Helper: a character below code point 128 occupies one UTF-8 byte. -/
theorem charUtf8Size_of_ascii (c : Char) (h : c.toNat < 128) : charUtf8Size c = 1 := by
  unfold charUtf8Size
  rw [if_pos h]

/-- Helper: for pure-ASCII strings the UTF-8 byte length is the character
count. -/
theorem utf8Len_of_ascii (s : Str) (h : ∀ c ∈ s, c.toNat < 128) :
    utf8Len s = s.length := by
  induction s with
  | nil => rfl
  | cons c rest ih =>
    have hrec := ih (fun x hx => h x (List.mem_cons_of_mem _ hx))
    simp only [utf8Len, List.map_cons, List.sum_cons, List.length_cons] at hrec ⊢
    rw [charUtf8Size_of_ascii c (h c (List.mem_cons_self _ _)), hrec]
    omega

/-- Helper: on pure-ASCII strings, taking `n` UTF-8 bytes is taking `n`
characters, and never panics while `n` is in range. -/
theorem byteTake_of_ascii :
    ∀ (n : Nat) (s : Str), (∀ c ∈ s, c.toNat < 128) → n ≤ s.length →
      byteTake n s = some (s.take n)
  | 0, _, _, _ => by simp [byteTake]
  | n + 1, [], _, h => absurd h (by simp)
  | n + 1, c :: rest, hc, h => by
    have h1 : charUtf8Size c = 1 :=
      charUtf8Size_of_ascii c (hc c (List.mem_cons_self _ _))
    unfold byteTake
    rw [if_pos (by omega), h1]
    simp only [Nat.add_sub_cancel]
    rw [byteTake_of_ascii n rest (fun x hx => hc x (List.mem_cons_of_mem _ hx))
      (by simpa using h)]
    rfl

/-- Claim C5, counterexample: on a summary of 150 two-byte characters
(300 UTF-8 bytes but only 150 characters) the code truncates at byte 200,
yielding the first 100 characters plus the ellipsis marker, whereas the
claim ("truncated to 200 characters ... when longer") predicts the
untruncated 150-character text. -/
theorem summary_byte_truncation_cex :
    processSummary (List.replicate 150 (Char.ofNat 0xE4)) =
      some (some (List.replicate 100 (Char.ofNat 0xE4) ++ "...".data)) ∧
    List.replicate 100 (Char.ofNat 0xE4) ++ "...".data ≠
      List.replicate 150 (Char.ofNat 0xE4) :=
  ⟨by decide, by decide⟩

/-- Claim C5, amended: the normalized summary is the markup-stripped,
entity-decoded, trimmed text with the first two lines joined by a space,
truncated at 200 UTF-8 BYTES (not characters) with a three-character
ellipsis marker appended when the byte length exceeds 200; the concrete
examples hold as stated (for ASCII text, bytes and characters coincide,
and a 250-character input yields the first 200 characters plus the
marker), an input processing to "Comments" or to the empty string yields
an absent summary, and on any input whose two-line text is pure ASCII the
truncation is exactly character truncation at 200. -/
theorem summary_extraction :
    processSummary "<p>Hello <b>world</b></p>".data = some (some "Hello world".data) ∧
    processSummary (List.replicate 250 'a') =
      some (some (List.replicate 200 'a' ++ "...".data)) ∧
    processSummary "Comments".data = some none ∧
    processSummary ([] : Str) = some none ∧
    ∀ s : Str, (∀ c ∈ twolineOf s, c.toNat < 128) →
      summarize s = some (if 200 < (twolineOf s).length
        then (twolineOf s).take 200 ++ "...".data else twolineOf s) := by
  refine ⟨by decide, by decide, by decide, by decide, ?_⟩
  intro s hascii
  unfold summarize
  rw [utf8Len_of_ascii _ hascii]
  by_cases h200 : 200 < (twolineOf s).length
  · rw [if_pos h200, if_pos h200, byteTake_of_ascii 200 _ hascii (by omega)]
    rfl
  · rw [if_neg h200, if_neg h200]

/-- Claim C5 witness: the amended statement applied at a concrete ASCII
input. -/
theorem summary_extraction_witness :
    summarize "Hi".data = some (if 200 < (twolineOf "Hi".data).length
      then (twolineOf "Hi".data).take 200 ++ "...".data else twolineOf "Hi".data) :=
  summary_extraction.2.2.2.2 "Hi".data (by decide)

/-- Claim C10: summary normalization is NOT total: on a raw summary of 67
three-byte characters the two-line text is 201 UTF-8 bytes long, byte
index 200 falls inside the final character, and the Rust slice
`&twoline[..200]` panics (modelled as `none`). -/
theorem summary_truncation_panics :
    processSummary (List.replicate 67 (Char.ofNat 0x20AC)) = none := by decide

/-- Claim C4, counterexample: the parser maps
"Mon, 15 Jan 2024 10:30:00 +0200" to 1705307400 (08:30:00 UTC), not to
the 1705306200 (08:10:00 UTC) stated by the claim. -/
theorem parse_timestamp_plus0200_cex :
    parse_timestamp "Mon, 15 Jan 2024 10:30:00 +0200".data = some 1705307400 ∧
    (1705307400 : Int) ≠ 1705306200 :=
  ⟨by decide, by decide⟩

/-- Claim C4, amended: the three example timestamps evaluate as stated
except that "Mon, 15 Jan 2024 10:30:00 +0200" maps to 1705307400 (10:30
local time minus the +02:00 offset is 08:30:00 UTC). -/
theorem parse_timestamp_examples :
    parse_timestamp "2024-01-15T10:30:00Z".data = some 1705314600 ∧
    parse_timestamp "Mon, 15 Jan 2024 10:30:00 +0200".data = some 1705307400 ∧
    parse_timestamp "15 Jan 2024 10:30:00 GMT".data = some 1705314600 :=
  ⟨by decide, by decide, by decide⟩

/-- Claim C6, counterexample: inside an item with two `guid` children
carrying texts "A" then "B", the resulting RawItem id is "B" — the LAST
occurrence, not the first one the claim states. -/
theorem item_id_last_wins_cex :
    (parse_feed twoGuidEvents).2.map RawEntry.id = ["B".data] ∧
    "B".data ≠ "A".data :=
  ⟨by decide, by decide⟩

/-- Claim C6, amended: while inside an item, `link`, `published` and
`summary` are populated first-value-wins, but `id` (from `id`/`guid`
text) and `title` are overwritten by every occurrence, so the LAST such
element's text is kept. -/
theorem item_field_population (st : ParserState) (t : Str)
    (hin : st.inEntry = true) :
    ((st.currentTag = "id".data ∨ st.currentTag = "guid".data) →
        (step st (.text t)).entryId = t) ∧
    (st.currentTag = "title".data → (step st (.text t)).entryTitle = t) ∧
    ((st.currentTag = "published".data ∨ st.currentTag = "pubDate".data ∨
      st.currentTag = "updated".data ∨ st.currentTag = "date".data) →
        (step st (.text t)).entryPublished = some (st.entryPublished.getD t)) ∧
    ((st.currentTag = "summary".data ∨ st.currentTag = "description".data ∨
      st.currentTag = "content".data ∨ st.currentTag = "encoded".data) →
        (step st (.text t)).entrySummary = some (st.entrySummary.getD t)) ∧
    (st.currentTag = "link".data →
        (step st (.text t)).entryLink =
          (if st.entryLink = [] then t else st.entryLink)) := by
  have hne : ¬ (st.inFeedTitle ∧ ¬ st.inEntry) := by simp [hin]
  refine ⟨?_, ?_, ?_, ?_, ?_⟩
  · rintro (h | h) <;>
      simp [step, hne, hin, h]
  · intro h
    simp [step, hne, hin, h]
  · rintro (h | h | h | h) <;>
      · simp [step, hne, hin, h]
        cases hp : st.entryPublished <;> simp [hp]
  · rintro (h | h | h | h) <;>
      · simp [step, hne, hin, h]
        cases hp : st.entrySummary <;> simp [hp]
  · intro h
    simp [step, hne, hin, h]
    cases hl : st.entryLink <;> simp [hl]

/-- Claim C6 witness: the amended statement applied at a concrete in-item
state whose current tag is `guid`. -/
theorem item_field_population_witness :
    (step { initParserState with inEntry := true, currentTag := "guid".data }
      (.text "x".data)).entryId = "x".data :=
  (item_field_population
    { initParserState with inEntry := true, currentTag := "guid".data }
    "x".data rfl).1 (Or.inr rfl)

/-- Claim C7, counterexample: with two qualifying `title` elements carrying
texts "A" then "B", the parsed feed title is "B" — a later qualifying
`title` DOES replace the feed title, contrary to the claim that later ones
are ignored. -/
theorem feed_title_last_wins_cex :
    (parse_feed twoTitleEvents).1 = "B".data ∧ "B".data ≠ "A".data :=
  ⟨by decide, by decide⟩

/-- Claim C7, amended: a `title` start tag at depth ≤ 3 outside any item
arms feed-title capture, and the next text event then overwrites the feed
title unconditionally, so the LAST qualifying `title` element's text is
returned, not the first. -/
theorem feed_title_capture (st : ParserState) (t name : Str)
    (attrs : List (Str × Str)) :
    (st.inEntry = false → local_name name = "title".data → st.depth + 1 ≤ 3 →
      (step st (.start name attrs)).inFeedTitle = true) ∧
    (st.inFeedTitle = true → st.inEntry = false →
      (step st (.text t)).feedTitle = t) := by
  constructor
  · intro hin hname hdepth
    simp [step, hname, hin, hdepth]
  · intro hft hin
    simp [step, hft, hin]

/-- Claim C7 witness: the amended statement applied at a concrete armed
state. -/
theorem feed_title_capture_witness :
    (step { initParserState with inFeedTitle := true, feedTitle := "A".data }
      (.text "B".data)).feedTitle = "B".data :=
  (feed_title_capture
    { initParserState with inFeedTitle := true, feedTitle := "A".data }
    "B".data [] []).2 rfl rfl

/-- Claim C8, counterexample: in "15 Jan 2024 10:30:00 +ab30" the hours
digit group of the numeric zone token fails to parse as an integer, yet
the parser does not return `none`: `unwrap_or(0)` substitutes 0 for the
hours, the minutes group still contributes 30 minutes, and the result is
an instant computed from the defaulted field. -/
theorem tz_digits_default_cex :
    parse_timestamp "15 Jan 2024 10:30:00 +ab30".data ≠ none ∧
    parse_timestamp "15 Jan 2024 10:30:00 +ab30".data = some 1705312800 :=
  ⟨by decide, by decide⟩

/-- Claim C8, amended: in the free-form grammar a token count below four,
or a day, month, year or clock field that fails to parse as an integer,
yields `none` (no partial result); but the digit groups of a numeric
`±HHMM` zone token are NOT required to parse — each failing group defaults
to 0, and an unrecognized or absent zone token defaults to UTC, so a
mangled numeric zone still produces an instant. -/
theorem rfc2822_failure_yields_none (s : Str)
    (h : (split_whitespace (dropDayName s)).length < 4 ∨
      ∃ d mo y t rest,
        split_whitespace (dropDayName s) = d :: mo :: y :: t :: rest ∧
        (parseI64 d = none ∨ month_from_abbrev mo = none ∨ parseI64 y = none ∨
         (splitOnCharM ':' t).length < 3 ∨
         ∃ h1 m1 s2 r2, splitOnCharM ':' t = h1 :: m1 :: s2 :: r2 ∧
           (parseI64 h1 = none ∨ parseI64 m1 = none ∨ parseI64 s2 = none))) :
    parse_rfc2822 s = none := by
  unfold parse_rfc2822
  rcases h with hlen | ⟨d, mo, y, t, rest, hp, hfail⟩
  · rcases hps : split_whitespace (dropDayName s) with
      _ | ⟨a, _ | ⟨b, _ | ⟨c, _ | ⟨e, r⟩⟩⟩⟩ <;>
      simp [hps] at hlen ⊢ <;>
      exact absurd hlen (by omega)
  · rw [hp]
    rcases hfail with hd | hmo | hy | hlen3 | ⟨h1, m1, s2, r2, ht, hf⟩
    · simp [hd]
    · cases hpd : parseI64 d <;> simp [hpd, hmo]
    · cases hpd : parseI64 d <;> cases hpm : month_from_abbrev mo <;>
        simp [hpd, hpm, hy]
    · cases hpd : parseI64 d <;> cases hpm : month_from_abbrev mo <;>
        cases hpy : parseI64 y <;>
        simp [hpd, hpm, hpy] <;>
        (rcases hts : splitOnCharM ':' t with
          _ | ⟨a1, _ | ⟨b1, _ | ⟨c1, r1⟩⟩⟩ <;> simp [hts] at hlen3 ⊢ <;>
         exact absurd hlen3 (by omega))
    · cases hpd : parseI64 d <;> cases hpm : month_from_abbrev mo <;>
        cases hpy : parseI64 y <;>
        simp [hpd, hpm, hpy, ht] <;>
        (intro a ha b hb
         rcases hf with hf | hf | hf
         · rw [hf] at ha; cases ha
         · rw [hf] at hb; cases hb
         · exact hf)

/-- Claim C8 witness: the amended statement applied at a concrete input
with too few tokens. -/
theorem rfc2822_failure_yields_none_witness :
    parse_rfc2822 "foo".data = none :=
  rfc2822_failure_yields_none "foo".data (Or.inl (by decide))

/-- Helper: an id occurs in the dedup output iff it occurs in the input
and is not already in the seen set. -/
theorem mem_map_id_dedupGo (seen : List Str) (l : List Entry) (s : Str) :
    s ∈ (dedupGo seen l).map Entry.id ↔ s ∈ l.map Entry.id ∧ s ∉ seen := by
  induction l generalizing seen with
  | nil => simp [dedupGo]
  | cons e rest ih =>
    by_cases hmem : e.id ∈ seen
    · rw [dedupGo, if_pos hmem, ih]
      simp only [List.map_cons, List.mem_cons]
      constructor
      · rintro ⟨hs, hns⟩
        exact ⟨Or.inr hs, hns⟩
      · rintro ⟨rfl | hs, hns⟩
        · exact absurd hmem hns
        · exact ⟨hs, hns⟩
    · rw [dedupGo, if_neg hmem]
      simp only [List.map_cons, List.mem_cons, ih]
      constructor
      · rintro (rfl | ⟨hs, hns⟩)
        · exact ⟨Or.inl rfl, hmem⟩
        · exact ⟨Or.inr hs, fun hc => hns (Or.inr hc)⟩
      · rintro ⟨rfl | hs, hns⟩
        · exact Or.inl rfl
        · by_cases he : s = e.id
          · exact Or.inl he
          · exact Or.inr ⟨hs, fun hc => hc.elim he hns⟩

/-- Helper: the dedup output never repeats an id. -/
theorem nodup_map_id_dedupGo (seen : List Str) (l : List Entry) :
    ((dedupGo seen l).map Entry.id).Nodup := by
  induction l generalizing seen with
  | nil => simp [dedupGo]
  | cons e rest ih =>
    by_cases hmem : e.id ∈ seen
    · rw [dedupGo, if_pos hmem]
      exact ih seen
    · rw [dedupGo, if_neg hmem]
      simp only [List.map_cons, List.nodup_cons]
      exact ⟨fun hc => ((mem_map_id_dedupGo _ _ _).mp hc).2 (List.mem_cons_self _ _),
        ih _⟩

/-- Helper: every kept entry is the first input entry carrying its id. -/
theorem find?_dedupGo (seen : List Str) (l : List Entry) :
    ∀ e ∈ dedupGo seen l, l.find? (fun x => decide (x.id = e.id)) = some e := by
  induction l generalizing seen with
  | nil =>
    intro e he
    simp [dedupGo] at he
  | cons a rest ih =>
    intro e he
    by_cases hmem : a.id ∈ seen
    · rw [dedupGo, if_pos hmem] at he
      have hnotin : e.id ∉ seen :=
        ((mem_map_id_dedupGo seen rest e.id).mp (List.mem_map_of_mem _ he)).2
      have hne : decide (a.id = e.id) = false :=
        decide_eq_false fun hEq => hnotin (hEq ▸ hmem)
      simp only [List.find?_cons, hne]
      exact ih seen e he
    · rw [dedupGo, if_neg hmem] at he
      rcases List.mem_cons.mp he with rfl | he'
      · simp [List.find?_cons]
      · have hnotin : e.id ∉ a.id :: seen :=
          ((mem_map_id_dedupGo (a.id :: seen) rest e.id).mp
            (List.mem_map_of_mem _ he')).2
        have hne : decide (a.id = e.id) = false :=
          decide_eq_false fun hEq => hnotin (hEq ▸ List.mem_cons_self _ _)
        simp only [List.find?_cons, hne]
        exact ih _ e he'

/-- Claim C2: the dedup step of `fetch_and_save` keeps exactly one Entry
per distinct input id — the kept ids are pairwise distinct, an id occurs
in the output iff it occurs in the input, and every kept Entry is the
first-encountered input occurrence of its id (so its field values are the
first occurrence's). -/
theorem dedup_unique_first_wins (l : List Entry) :
    ((dedupEntries l).map Entry.id).Nodup ∧
    (∀ s : Str, s ∈ (dedupEntries l).map Entry.id ↔ s ∈ l.map Entry.id) ∧
    (∀ e ∈ dedupEntries l, l.find? (fun x => decide (x.id = e.id)) = some e) := by
  refine ⟨nodup_map_id_dedupGo [] l, fun s => ?_, find?_dedupGo [] l⟩
  rw [dedupEntries, mem_map_id_dedupGo]
  simp

/-- Claim C2 witness: the kept entry for a duplicated id is the first
occurrence. -/
theorem dedup_unique_first_wins_witness :
    [entryA, entryB].find? (fun x => decide (x.id = entryA.id)) = some entryA :=
  (dedup_unique_first_wins [entryA, entryB]).2.2 entryA (by decide)

/-- Helper: `entryLE` in propositional form. -/
theorem entryLE_iff (a b : Entry) :
    entryLE a b = true ↔ pubGE a.published b.published := by
  rcases ha : a.published with _ | x <;> rcases hb : b.published with _ | y <;>
    simp [entryLE, optCmp, pubGE, ha, hb, intCmp]
  split_ifs with h1 h2 <;> simp <;> omega

/-- Helper: `pubGE` is transitive. -/
theorem pubGE_trans (x y z : Option Int) (h1 : pubGE x y) (h2 : pubGE y z) :
    pubGE x z := by
  rcases x with _ | a <;> rcases y with _ | b <;> rcases z with _ | c <;>
    simp [pubGE] at * <;> omega

/-- Helper: `pubGE` is total. -/
theorem pubGE_total (x y : Option Int) : pubGE x y ∨ pubGE y x := by
  rcases x with _ | a <;> rcases y with _ | b <;> simp [pubGE] <;> omega

/-- Helper: transitivity of the sort comparator. -/
theorem entryLE_trans (a b c : Entry) (h1 : entryLE a b) (h2 : entryLE b c) :
    entryLE a c :=
  (entryLE_iff a c).mpr
    (pubGE_trans _ _ _ ((entryLE_iff a b).mp h1) ((entryLE_iff b c).mp h2))

/-- Helper: totality of the sort comparator. -/
theorem entryLE_total (a b : Entry) : entryLE a b || entryLE b a := by
  rw [Bool.or_eq_true]
  rcases pubGE_total a.published b.published with h | h
  · exact Or.inl ((entryLE_iff a b).mpr h)
  · exact Or.inr ((entryLE_iff b a).mpr h)

/-- Claim C1: in the output of the dedup-and-order step of
`fetch_and_save`, for every earlier/later pair of entries, if both have a
known published timestamp the earlier one's is ≥ the later one's, and an
earlier entry with an unknown timestamp forces every later entry's
timestamp to be unknown too (equivalently, unknown-timestamp entries come
after all known-timestamp ones); moreover the subsequence of
unknown-timestamp entries is exactly their encounter-order subsequence of
the deduplicated input (stability). -/
theorem fetch_and_save_ordering (l : List Entry) :
    (fetch_and_save_pure l).Pairwise (fun a b =>
      (∀ x y, a.published = some x → b.published = some y → y ≤ x) ∧
      (a.published = none → b.published = none)) ∧
    (fetch_and_save_pure l).filter (fun e => e.published.isNone) =
      (dedupEntries l).filter (fun e => e.published.isNone) := by
  constructor
  · have hs := List.sorted_mergeSort entryLE_trans entryLE_total (dedupEntries l)
    refine hs.imp ?_
    intro a b hab
    have h := (entryLE_iff a b).mp hab
    constructor
    · intro x y hx hy
      simpa [pubGE, hx, hy] using h
    · intro hnone
      rcases hb : b.published with _ | y
      · rfl
      · simp [pubGE, hnone, hb] at h
  · have hperm : List.Perm
        ((fetch_and_save_pure l).filter (fun e => e.published.isNone))
        ((dedupEntries l).filter (fun e => e.published.isNone)) :=
      (List.mergeSort_perm (dedupEntries l) entryLE).filter _
    have hpair : ((dedupEntries l).filter (fun e => e.published.isNone)).Pairwise
        (fun a b => entryLE a b) := by
      refine List.pairwise_of_forall_mem_list ?_
      intro a ha b hb
      have ha' : a.published = none := by
        simpa [Option.isNone_iff_eq_none] using (List.mem_filter.mp ha).2
      have hb' : b.published = none := by
        simpa [Option.isNone_iff_eq_none] using (List.mem_filter.mp hb).2
      exact (entryLE_iff a b).mpr (by simp [pubGE, ha', hb'])
    have hsub : List.Sublist
        ((dedupEntries l).filter (fun e => e.published.isNone))
        (fetch_and_save_pure l) :=
      List.sublist_mergeSort entryLE_trans entryLE_total hpair
        (List.filter_sublist _)
    have hsub2 : List.Sublist
        ((dedupEntries l).filter (fun e => e.published.isNone))
        ((fetch_and_save_pure l).filter (fun e => e.published.isNone)) := by
      have hband : (fun e : Entry => e.published.isNone && e.published.isNone) =
          (fun e : Entry => e.published.isNone) := funext fun e => Bool.and_self _
      have h2 := List.Sublist.filter (fun e : Entry => e.published.isNone) hsub
      rwa [List.filter_filter, hband] at h2
    exact (hsub2.eq_of_length hperm.length_eq.symm).symm

/-- Claim C1 witness: the stability conjunct applied at a concrete input
list. -/
theorem fetch_and_save_ordering_witness :
    (fetch_and_save_pure [entryA, entryB]).filter (fun e => e.published.isNone) =
      (dedupEntries [entryA, entryB]).filter (fun e => e.published.isNone) :=
  (fetch_and_save_ordering [entryA, entryB]).2

/-- Helper: digit accumulation distributes over append. -/
theorem digitsVal_append (acc : Nat) (s t : Str) :
    digitsVal acc (s ++ t) = (digitsVal acc s).bind fun a => digitsVal a t := by
  induction s generalizing acc with
  | nil => rfl
  | cons c rest ih =>
    cases hc : charToDigit c <;> simp [digitsVal, hc, ih]

/-- Helper: `charToDigit` inverts `digitChar10` on digits. -/
theorem charToDigit_digitChar10 (d : Nat) (h : d < 10) :
    charToDigit (digitChar10 d) = some d := by
  interval_cases d <;> decide

/-- Helper: `digitChar10` always yields an ASCII digit character. -/
theorem digitChar10_bounds (d : Nat) : '0' ≤ digitChar10 d ∧ digitChar10 d ≤ '9' := by
  unfold digitChar10
  split <;> decide

/-- Helper: value of a most-significant-first digit string. -/
theorem digitsVal_rev_digits :
    ∀ (L : List Nat), (∀ d ∈ L, d < 10) → ∀ acc : Nat,
      digitsVal acc ((L.map digitChar10).reverse) =
        some (acc * 10 ^ L.length + Nat.ofDigits 10 L) := by
  intro L
  induction L with
  | nil =>
    intro _ acc
    simp [digitsVal, Nat.ofDigits_nil]
  | cons d t ih =>
    intro hlt acc
    have hd : d < 10 := hlt d (List.mem_cons_self _ _)
    simp only [List.map_cons, List.reverse_cons]
    rw [digitsVal_append, ih (fun x hx => hlt x (List.mem_cons_of_mem _ hx)) acc]
    simp only [Option.some_bind]
    simp [digitsVal, charToDigit_digitChar10 d hd, Nat.ofDigits_cons,
      List.length_cons, pow_succ]
    ring

/-- Helper: `digitsVal` inverts `natToStr`. -/
theorem digitsVal_natToStr (n : Nat) : digitsVal 0 (natToStr n) = some n := by
  unfold natToStr
  by_cases h : n = 0
  · subst h
    decide
  · rw [if_neg h,
      digitsVal_rev_digits (Nat.digits 10 n)
        (fun d hd => Nat.digits_lt_base (by omega) hd) 0]
    simp [Nat.ofDigits_digits]

/-- Helper: a decimal rendering is never empty. -/
theorem natToStr_ne_nil (n : Nat) : natToStr n ≠ [] := by
  unfold natToStr
  split
  · simp
  · simp only [ne_eq, List.reverse_eq_nil_iff, List.map_eq_nil_iff]
    exact Nat.digits_ne_nil_iff_ne_zero.mpr (by assumption)

/-- Helper: every character of a decimal rendering is an ASCII digit. -/
theorem natToStr_all_digits (n : Nat) :
    ∀ c ∈ natToStr n, '0' ≤ c ∧ c ≤ '9' := by
  unfold natToStr
  split
  · intro c hc
    simp at hc
    subst hc
    decide
  · intro c hc
    simp only [List.mem_reverse, List.mem_map] at hc
    obtain ⟨d, _, rfl⟩ := hc
    exact digitChar10_bounds d

/-- Helper: an ASCII digit character is none of the special characters the
flat format cares about. -/
theorem digit_char_facts (c : Char) (h : '0' ≤ c ∧ c ≤ '9') :
    c ≠ '\t' ∧ c ≠ '\n' ∧ c ≠ '\r' ∧ c ≠ '+' ∧ c ≠ '-' := by
  obtain ⟨h1, h2⟩ := h
  refine ⟨?_, ?_, ?_, ?_, ?_⟩ <;>
    · rintro rfl
      revert h1 h2
      decide

/-- Helper: `parseI64` inverts `natToStr` within the `i64` range. -/
theorem parseI64_natToStr (n : Nat) (h : n ≤ 2 ^ 63 - 1) :
    parseI64 (natToStr n) = some (n : Int) := by
  obtain ⟨c, rest, hcr⟩ := List.exists_cons_of_ne_nil (natToStr_ne_nil n)
  have hc : '0' ≤ c ∧ c ≤ '9' :=
    natToStr_all_digits n c (by rw [hcr]; exact List.mem_cons_self _ _)
  obtain ⟨-, -, -, hplus, hminus⟩ := digit_char_facts c hc
  rw [hcr]
  simp only [parseI64, if_neg hplus, if_neg hminus]
  rw [← hcr, digitsVal_natToStr]
  simp only [Option.some_bind]
  rw [if_pos h]

/-- Helper: `parseI64` inverts `intToStr` within the `i64` range. -/
theorem parseI64_intToStr (n : Int) (h1 : -(2 ^ 63) ≤ n) (h2 : n ≤ 2 ^ 63 - 1) :
    parseI64 (intToStr n) = some n := by
  unfold intToStr
  by_cases hneg : n < 0
  · rw [if_pos hneg]
    have habs : ((n.natAbs : Int)) = -n := by omega
    simp only [parseI64, if_neg (by decide : ¬ ('-' = '+')), if_pos rfl,
      if_neg (natToStr_ne_nil n.natAbs)]
    rw [digitsVal_natToStr]
    simp only [Option.some_bind]
    rw [if_pos (by omega : n.natAbs ≤ 2 ^ 63), habs, neg_neg]
    simp
  · rw [if_neg hneg]
    rw [parseI64_natToStr n.toNat (by omega)]
    congr 1
    exact Int.toNat_of_nonneg (not_lt.mp hneg)

/-- Helper: `linesGo` moves a newline-free prefix into the accumulator. -/
theorem linesGo_append (cur xs t : Str) (h : '\n' ∉ xs) :
    linesGo cur (xs ++ t) = linesGo (xs.reverse ++ cur) t := by
  induction xs generalizing cur with
  | nil => simp
  | cons x xs ih =>
    have hx : x ≠ '\n' := fun hc => h (hc ▸ List.mem_cons_self _ _)
    simp only [List.cons_append, linesGo, if_neg hx, List.append_eq]
    rw [ih (x :: cur) (fun hc => h (List.mem_cons_of_mem _ hc))]
    simp

/-- Helper: `rustLines` peels one newline-terminated record line. -/
theorem rustLines_line_cons (line t : Str) (h : '\n' ∉ line) :
    rustLines (line ++ '\n' :: t) = stripTrailingCR line :: rustLines t := by
  unfold rustLines
  rw [linesGo_append [] line ('\n' :: t) h]
  simp [linesGo]

/-- Helper: sanitized fields contain neither tabs nor newlines. -/
theorem sanitize_field_chars (s : Str) :
    ∀ c ∈ sanitize_field s, c ≠ '\t' ∧ c ≠ '\n' := by
  intro c hc
  simp only [sanitize_field, replaceChar, List.map_map, List.mem_map] at hc
  obtain ⟨x, -, rfl⟩ := hc
  by_cases hx1 : x = '\t' <;> by_cases hx2 : x = '\n' <;>
    simp [Function.comp, hx1, hx2]

/-- Helper: characters of a rendered integer are a sign or digits. -/
theorem intToStr_chars (n : Int) :
    ∀ c ∈ intToStr n, c = '-' ∨ ('0' ≤ c ∧ c ≤ '9') := by
  unfold intToStr
  split
  · intro c hc
    rcases List.mem_cons.mp hc with rfl | hc2
    · exact Or.inl rfl
    · exact Or.inr (natToStr_all_digits _ c hc2)
  · intro c hc
    exact Or.inr (natToStr_all_digits _ c hc)

/-- Helper: the rendered `published` field has no tab or newline. -/
theorem pubStr_chars (e : Entry) :
    ∀ c ∈ (e.published.map intToStr).getD [], c ≠ '\t' ∧ c ≠ '\n' := by
  cases hp : e.published with
  | none => simp
  | some n =>
    intro c hc
    simp only [Option.map_some', Option.getD_some] at hc
    rcases intToStr_chars n c hc with rfl | hd
    · exact ⟨by decide, by decide⟩
    · have hfacts := digit_char_facts c hd
      exact ⟨hfacts.1, hfacts.2.1⟩

/-- Helper: a record line contains no newline. -/
theorem entryLine_no_nl (e : Entry) : '\n' ∉ entryLine e := by
  intro hc
  simp only [entryLine, List.mem_append, List.mem_cons] at hc
  rcases hc with h | h | h | h | h | h | h | h | h | h | h
  · exact (sanitize_field_chars _ _ h).2 rfl
  · cases h
  · exact (sanitize_field_chars _ _ h).2 rfl
  · cases h
  · exact (sanitize_field_chars _ _ h).2 rfl
  · cases h
  · exact (pubStr_chars e _ h).2 rfl
  · cases h
  · exact (sanitize_field_chars _ _ h).2 rfl
  · cases h
  · exact (sanitize_field_chars _ _ h).2 rfl

/-- Helper: stripping one trailing carriage return passes over a tab-marked
prefix. -/
theorem stripTrailingCR_append_tab (xs ys : Str) :
    stripTrailingCR (xs ++ '\t' :: ys) = xs ++ '\t' :: stripTrailingCR ys := by
  rcases List.eq_nil_or_concat ys with rfl | ⟨zs, z, rfl⟩
  · simp [stripTrailingCR, List.getLast?_concat]
  · simp only [List.concat_eq_append]
    unfold stripTrailingCR
    rw [show xs ++ '\t' :: (zs ++ [z]) = (xs ++ '\t' :: zs) ++ [z] by simp]
    rw [List.getLast?_concat, List.getLast?_concat]
    by_cases hz : z = '\r'
    · subst hz
      rw [if_pos rfl, if_pos rfl, List.dropLast_concat, List.dropLast_concat]
    · rw [if_neg (by simpa using hz), if_neg (by simpa using hz)]
      simp

/-- Helper: `splitFirst` finds the marked separator after a clean prefix. -/
theorem splitFirst_append (c : Char) (pre post : Str) (h : c ∉ pre) :
    splitFirst c (pre ++ c :: post) = some (pre, post) := by
  induction pre with
  | nil => simp [splitFirst]
  | cons x xs ih =>
    have hx : x ≠ c := fun hc => h (hc ▸ List.mem_cons_self _ _)
    simp only [List.cons_append, splitFirst, if_neg hx, List.append_eq,
      ih (fun hc => h (List.mem_cons_of_mem _ hc)), Option.map_some']

/-- Helper: `splitn` recovers tab-separated clean fields. -/
theorem splitn_fields :
    ∀ (fs : List Str) (lst : Str), (∀ f ∈ fs, '\t' ∉ f) →
      splitn (fs.length + 1) '\t' (fs.foldr (fun g acc => g ++ '\t' :: acc) lst) =
        fs ++ [lst]
  | [], _, _ => rfl
  | f :: fs, lst, h => by
    have hf : '\t' ∉ f := h f (List.mem_cons_self _ _)
    show splitn (fs.length + 2) '\t'
      (f ++ '\t' :: fs.foldr (fun g acc => g ++ '\t' :: acc) lst) =
      (f :: fs) ++ [lst]
    simp only [splitn]
    rw [splitFirst_append '\t' f _ hf]
    show f :: splitn (fs.length + 1) '\t'
      (fs.foldr (fun g acc => g ++ '\t' :: acc) lst) = (f :: fs) ++ [lst]
    rw [splitn_fields fs lst (fun g hg => h g (List.mem_cons_of_mem _ hg))]
    rfl

/-- Helper: sanitizing a tab- and newline-free string changes nothing. -/
theorem sanitize_field_eq_self (s : Str)
    (hs : ∀ c ∈ s, c ≠ '\t' ∧ c ≠ '\n') : sanitize_field s = s := by
  unfold sanitize_field replaceChar
  rw [List.map_map]
  have hpt : ∀ x ∈ s,
      ((fun y => if y = '\n' then ' ' else y) ∘
        fun y => if y = '\t' then ' ' else y) x = id x := by
    intro x hx
    simp [Function.comp, (hs x hx).1, (hs x hx).2]
  rw [List.map_congr_left hpt, List.map_id]

/-- Helper: parsing one saved line yields the loaded form of the entry. -/
theorem parseLine_entryLine (e : Entry)
    (hpub : ∀ n, e.published = some n → -(2 ^ 63) ≤ n ∧ n ≤ 2 ^ 63 - 1) :
    parseLine (stripTrailingCR (entryLine e)) = some (loadedEntry e) := by
  have hforall : ∀ f ∈ [sanitize_field e.id, sanitize_field e.title,
      sanitize_field e.link, (e.published.map intToStr).getD [],
      sanitize_field e.feed_title], '\t' ∉ f := by
    intro f hf
    simp only [List.mem_cons, List.not_mem_nil, or_false] at hf
    rcases hf with rfl | rfl | rfl | rfl | rfl
    · exact fun hc => (sanitize_field_chars _ _ hc).1 rfl
    · exact fun hc => (sanitize_field_chars _ _ hc).1 rfl
    · exact fun hc => (sanitize_field_chars _ _ hc).1 rfl
    · exact fun hc => (pubStr_chars e _ hc).1 rfl
    · exact fun hc => (sanitize_field_chars _ _ hc).1 rfl
  have hsplit : splitn 6 '\t' (stripTrailingCR (entryLine e)) =
      [sanitize_field e.id, sanitize_field e.title, sanitize_field e.link,
       (e.published.map intToStr).getD [], sanitize_field e.feed_title,
       stripTrailingCR (sanitize_field (e.summary.getD []))] := by
    have h6 := splitn_fields [sanitize_field e.id, sanitize_field e.title,
        sanitize_field e.link, (e.published.map intToStr).getD [],
        sanitize_field e.feed_title]
      (stripTrailingCR (sanitize_field (e.summary.getD []))) hforall
    rw [entryLine, stripTrailingCR_append_tab, stripTrailingCR_append_tab,
      stripTrailingCR_append_tab, stripTrailingCR_append_tab,
      stripTrailingCR_append_tab]
    simpa using h6
  have hpubeq : parseI64 ((e.published.map intToStr).getD []) = e.published := by
    cases hpe : e.published with
    | none => rfl
    | some n =>
      simp only [Option.map_some', Option.getD_some]
      exact parseI64_intToStr n (hpub n hpe).1 (hpub n hpe).2
  simp only [parseLine, hsplit]
  rw [hpubeq]
  rfl

/-- Helper: what `load_entries` returns on `save_entries` output,
entrywise. -/
theorem load_save (es : List Entry)
    (hpub : ∀ e ∈ es, ∀ n, e.published = some n → -(2 ^ 63) ≤ n ∧ n ≤ 2 ^ 63 - 1) :
    load_entries (save_entries es) = es.map loadedEntry := by
  induction es with
  | nil => rfl
  | cons e rest ih =>
    have hsave : save_entries (e :: rest) =
        entryLine e ++ '\n' :: save_entries rest := by
      simp [save_entries]
    have ih2 := ih (fun x hx n hn => hpub x (List.mem_cons_of_mem _ hx) n hn)
    rw [load_entries] at ih2
    rw [load_entries, hsave, rustLines_line_cons _ _ (entryLine_no_nl e)]
    simp only [List.filterMap_cons,
      parseLine_entryLine e (hpub e (List.mem_cons_self _ _)), ih2,
      List.map_cons]

/-- Helper: a clean entry is a fixed point of the round trip. -/
theorem loadedEntry_eq_self (e : Entry)
    (hid : ∀ c ∈ e.id, c ≠ '\t' ∧ c ≠ '\n')
    (htitle : ∀ c ∈ e.title, c ≠ '\t' ∧ c ≠ '\n')
    (hlink : ∀ c ∈ e.link, c ≠ '\t' ∧ c ≠ '\n')
    (hfeed : ∀ c ∈ e.feed_title, c ≠ '\t' ∧ c ≠ '\n')
    (hsum : ∀ s, e.summary = some s →
      (∀ c ∈ s, c ≠ '\t' ∧ c ≠ '\n') ∧ s ≠ [] ∧ s.getLast? ≠ some '\r') :
    loadedEntry e = e := by
  obtain ⟨id0, title0, link0, pub0, feed0, sum0⟩ := e
  simp only [loadedEntry, Entry.mk.injEq] at *
  refine ⟨sanitize_field_eq_self _ hid, sanitize_field_eq_self _ htitle,
    sanitize_field_eq_self _ hlink, trivial, sanitize_field_eq_self _ hfeed, ?_⟩
  cases sum0 with
  | none => rfl
  | some s =>
    obtain ⟨hcs, hne, hcr⟩ := hsum s rfl
    simp only [Option.getD_some]
    rw [sanitize_field_eq_self _ hcs]
    unfold stripTrailingCR
    rw [if_neg hcr, if_neg hne]

/-- Claim C3, counterexample: an entry whose summary is present but empty
has all string fields free of tabs, newlines and carriage returns, yet it
does not round-trip: the empty summary field is loaded back as an absent
summary. -/
theorem save_load_empty_summary_cex :
    load_entries (save_entries [emptySummaryEntry]) ≠ [emptySummaryEntry] := by
  decide

/-- Claim C3, amended: a save/load round trip maps each entry to its
sanitized form — fields with tabs or newlines have them replaced by
spaces, a carriage return ending the summary is eaten by the line split,
and an empty (present) summary is loaded as absent; in particular the
round trip is the identity on collections whose string fields are free of
tabs and newlines and whose summaries, when present, are non-empty and do
not end in a carriage return.  (`published` values are within the `i64`
range by construction in Rust; the bound is a hypothesis here because the
model uses unbounded integers.) -/
theorem save_load_round_trip (es : List Entry)
    (hpub : ∀ e ∈ es, ∀ n, e.published = some n → -(2 ^ 63) ≤ n ∧ n ≤ 2 ^ 63 - 1) :
    load_entries (save_entries es) = es.map loadedEntry ∧
    ((∀ e ∈ es,
        (∀ c ∈ e.id, c ≠ '\t' ∧ c ≠ '\n') ∧
        (∀ c ∈ e.title, c ≠ '\t' ∧ c ≠ '\n') ∧
        (∀ c ∈ e.link, c ≠ '\t' ∧ c ≠ '\n') ∧
        (∀ c ∈ e.feed_title, c ≠ '\t' ∧ c ≠ '\n') ∧
        (∀ s, e.summary = some s →
          (∀ c ∈ s, c ≠ '\t' ∧ c ≠ '\n') ∧ s ≠ [] ∧ s.getLast? ≠ some '\r')) →
      load_entries (save_entries es) = es) := by
  refine ⟨load_save es hpub, fun hclean => ?_⟩
  rw [load_save es hpub]
  conv_rhs => rw [← List.map_id es]
  apply List.map_congr_left
  intro e he
  obtain ⟨h1, h2, h3, h4, h5⟩ := hclean e he
  exact loadedEntry_eq_self e h1 h2 h3 h4 h5

/-- Claim C3 witness: the amended identity applied to a concrete clean
collection. -/
theorem save_load_round_trip_witness :
    load_entries (save_entries [cleanEntry]) = [cleanEntry] := by
  refine (save_load_round_trip [cleanEntry] ?_).2 ?_
  · intro e he n hn
    rw [List.mem_singleton] at he
    subst he
    simp [cleanEntry] at hn
  · intro e he
    rw [List.mem_singleton] at he
    subst he
    refine ⟨by decide, by decide, by decide, by decide, ?_⟩
    intro s hs
    simp only [cleanEntry, Option.some.injEq] at hs
    subst hs
    exact ⟨by decide, by decide, by decide⟩
